import Mathlib

/-!
# Verification of the `tts_reader` ebook-reader repository

A shallow embedding, in Lean 4, of the parts of the source relevant to the
frozen specification claims: the text-chunking utility
(`src/utils/textSplitter.ts`), the local TTS client's sanitization
(`fetchSpeechFromLocalServer`), the book-store hook (`useBookStore`), the
backup-restore flows (`SettingsPage.handleRestore`,
`UserSwitcherModal.handleRestore`), the file-import parser
(`src/services/parser.ts`), and the Book Settings modal's prefix cleanup.

Strings are modelled as `List Char`.  JavaScript regular expressions are
modelled operationally (each scanner below is derived from the exact
pattern in the source, with the derivation recorded in a comment).
-/

namespace TtsReader

/-- Whitespace as matched by JavaScript's `\s` class and `String.trim`
(restricted to the code points the model manipulates: space, tab, newline,
carriage return, form feed, vertical tab, NBSP). -/
def isWsJs (c : Char) : Bool :=
  c = ' ' ∨ c = '\t' ∨ c = '\n' ∨ c = '\r' ∨ c = '\x0b' ∨ c = '\x0c' ∨ c = ' '

/-- JavaScript `String.prototype.trim`: drop leading and trailing whitespace. -/
def trimJs (s : List Char) : List Char :=
  ((s.dropWhile isWsJs).reverse.dropWhile isWsJs).reverse

/-- JavaScript `String.prototype.trimStart`. -/
def trimStartJs (s : List Char) : List Char :=
  s.dropWhile isWsJs

/-- A string containing at least one non-whitespace character
(i.e. one that is not empty and not pure whitespace once trimmed). -/
def hasNonWs (s : List Char) : Bool :=
  s.any (fun c => ¬ isWsJs c)

theorem dropWhile_any_eq {p q : Char → Bool} (h : ∀ c, q c → ¬ p c) :
    ∀ s : List Char, (s.dropWhile p).any q = s.any q := by
  intro s
  induction s with
  | nil => rfl
  | cons c cs ih =>
    by_cases hc : p c
    · simp [List.dropWhile_cons, hc, ih]
      intro hq; exact absurd hc (by simpa using h c hq)
    · simp [List.dropWhile_cons, hc]

theorem hasNonWs_trimJs (s : List Char) : hasNonWs (trimJs s) = hasNonWs s := by
  unfold hasNonWs trimJs
  rw [List.any_reverse, dropWhile_any_eq (fun c hq => by simpa using hq),
    List.any_reverse, dropWhile_any_eq (fun c hq => by simpa using hq)]

theorem trimJs_eq_nil_iff (s : List Char) : trimJs s = [] ↔ hasNonWs s = false := by
  constructor
  · intro h
    rw [← hasNonWs_trimJs, h]; rfl
  · intro h
    have : s.dropWhile isWsJs = [] := by
      rw [List.dropWhile_eq_nil_iff]
      intro x hx
      by_contra hws
      have hany : hasNonWs s = true :=
        List.any_eq_true.mpr ⟨x, hx, by simpa using hws⟩
      rw [hany] at h; exact absurd h (by simp)
    rw [trimJs, this]; rfl

theorem hasNonWs_of_trimJs_ne_nil {s : List Char} (h : trimJs s ≠ []) :
    hasNonWs (trimJs s) = true := by
  have hs : hasNonWs s = true := by
    by_contra hcon
    exact h ((trimJs_eq_nil_iff s).mpr (by simpa using hcon))
  rw [hasNonWs_trimJs]; exact hs

/-! ## Text chunking utility (`src/utils/textSplitter.ts`, `splitTextIntoChunks`) -/

/-- Sentence-terminating punctuation, the class `[.?!]` of the sentence regex. -/
def isTerm (c : Char) : Bool :=
  c = '.' ∨ c = '?' ∨ c = '!'

/-- Operational model of
`trimmedText.match(/[^.?!]+[.?!]+["]?\s*|[^.?!]+$/g) || []`.

Derivation from the regex: both alternatives start with `[^.?!]+`, so no
match can begin at a terminator character — the global scan skips such
characters one at a time.  At a non-terminator, `[^.?!]+` greedily takes the
maximal run of non-terminators; if that run reaches the end of the string no
terminator can follow under any backtracking (every shorter run is still
followed by a non-terminator), so the second alternative `[^.?!]+$` matches
the whole remaining run.  Otherwise the first alternative matches: the run,
then the maximal run of terminators (`[.?!]+`, greedy, and no backtracking
can help since nothing later consumes terminators), then an optional double
quote, then the maximal whitespace run (`\s*`, greedy, final). -/
def scanSentences (xs : List Char) : List (List Char) :=
  match xs with
  | [] => []
  | c :: rest =>
    if isTerm c then scanSentences rest
    else
      let run := rest.takeWhile (fun d => !isTerm d)
      let rest1 := rest.dropWhile (fun d => !isTerm d)
      if hr : rest1 = [] then [c :: run]
      else
        let terms := rest1.tail.takeWhile isTerm
        let rest2 := rest1.tail.dropWhile isTerm
        if rest2.head? = some '"' then
          (c :: (run ++ rest1.head hr :: terms ++ '"' :: rest2.tail.takeWhile isWsJs)) ::
            scanSentences (rest2.tail.dropWhile isWsJs)
        else
          (c :: (run ++ rest1.head hr :: terms ++ rest2.takeWhile isWsJs)) ::
            scanSentences (rest2.dropWhile isWsJs)
termination_by xs.length
decreasing_by
  · simp
  · have e0 : 0 < (rest.dropWhile (fun d => !isTerm d)).length :=
      List.length_pos.mpr hr
    have e1 : (rest.dropWhile (fun d => !isTerm d)).length ≤ rest.length :=
      (List.dropWhile_sublist _).length_le
    have e2 : ((rest.dropWhile (fun d => !isTerm d)).tail.dropWhile isTerm).length ≤
        (rest.dropWhile (fun d => !isTerm d)).tail.length :=
      (List.dropWhile_sublist _).length_le
    have e3 : (((rest.dropWhile (fun d => !isTerm d)).tail.dropWhile isTerm).tail.dropWhile
        isWsJs).length ≤
        ((rest.dropWhile (fun d => !isTerm d)).tail.dropWhile isTerm).tail.length :=
      (List.dropWhile_sublist _).length_le
    simp only [List.length_tail, List.length_cons] at e2 e3 ⊢
    omega
  · have e0 : 0 < (rest.dropWhile (fun d => !isTerm d)).length :=
      List.length_pos.mpr hr
    have e1 : (rest.dropWhile (fun d => !isTerm d)).length ≤ rest.length :=
      (List.dropWhile_sublist _).length_le
    have e2 : ((rest.dropWhile (fun d => !isTerm d)).tail.dropWhile isTerm).length ≤
        (rest.dropWhile (fun d => !isTerm d)).tail.length :=
      (List.dropWhile_sublist _).length_le
    have e3 : (((rest.dropWhile (fun d => !isTerm d)).tail.dropWhile isTerm).dropWhile
        isWsJs).length ≤
        ((rest.dropWhile (fun d => !isTerm d)).tail.dropWhile isTerm).length :=
      (List.dropWhile_sublist _).length_le
    simp only [List.length_tail, List.length_cons] at e2 e3 ⊢
    omega

/-- The greedy sentence-accumulation loop of the primary strategy
(lines 22–38 of `textSplitter.ts`): the first argument list is the remaining
sentences, the second is `currentChunk`. -/
def accumulateSentences (maxLength : Nat) :
    List (List Char) → List Char → List (List Char)
  | [], currentChunk =>
      if (trimJs currentChunk).length > 0 then [trimJs currentChunk] else []
  | sentence :: ss, currentChunk =>
      let trimmedSentence := trimJs sentence
      if trimmedSentence.length = 0 then
        accumulateSentences maxLength ss currentChunk
      else if currentChunk.length > 0 ∧
          currentChunk.length + trimmedSentence.length > maxLength then
        trimJs currentChunk :: accumulateSentences maxLength ss (trimmedSentence ++ [' '])
      else
        accumulateSentences maxLength ss (currentChunk ++ trimmedSentence ++ [' '])

/-- JavaScript `t.lastIndexOf(' ', fromIdx)`: the greatest index `≤ fromIdx`
holding a space, or `-1` when there is none. -/
def lastSpaceIdx (t : List Char) (fromIdx : Nat) : Int :=
  match (t.take (fromIdx + 1)).reverse.findIdx? (fun c => c = ' ') with
  | some j => (((t.take (fromIdx + 1)).length - 1 - j : Nat) : Int)
  | none => -1

theorem lastSpaceIdx_le (t : List Char) (fromIdx : Nat) :
    lastSpaceIdx t fromIdx ≤ (fromIdx : Int) := by
  have hlen : (t.take (fromIdx + 1)).length ≤ fromIdx + 1 := by
    simp
  unfold lastSpaceIdx
  cases hf : (t.take (fromIdx + 1)).reverse.findIdx? (fun c => c = ' ') with
  | none => simp only [hf]; omega
  | some j => simp only [hf]; omega

/-- The `endIndex` computed by one iteration of the character-windowing
fallback loop (lines 44–55 of `textSplitter.ts`). -/
def fbEnd (t : List Char) (maxLength startIndex : Nat) : Nat :=
  if startIndex + maxLength < t.length then
    (if lastSpaceIdx t (startIndex + maxLength) > (startIndex : Int)
     then (lastSpaceIdx t (startIndex + maxLength)).toNat
     else startIndex + maxLength)
  else t.length

theorem fbEnd_ge (t : List Char) (maxLength startIndex : Nat)
    (h : startIndex < t.length) : startIndex ≤ fbEnd t maxLength startIndex := by
  unfold fbEnd
  split
  · split
    · next hgt => omega
    · omega
  · omega

theorem fbEnd_sub_le (t : List Char) (maxLength startIndex : Nat) :
    fbEnd t maxLength startIndex - startIndex ≤ maxLength := by
  unfold fbEnd
  split
  · split
    · next hgt =>
      have := lastSpaceIdx_le t (startIndex + maxLength)
      omega
    · omega
  · omega

/-- The character-windowing fallback loop (lines 42–62 of `textSplitter.ts`),
parametrised by the current `startIndex`.  `t.substring(startIndex, endIndex)`
is `(t.drop startIndex).take (endIndex - startIndex)`; the advance
`startIndex = endIndex + 1` skips the character at `endIndex`. -/
def fallbackLoop (t : List Char) (maxLength startIndex : Nat) : List (List Char) :=
  if h : startIndex < t.length then
    let endIndex := fbEnd t maxLength startIndex
    let chunk := trimJs ((t.drop startIndex).take (endIndex - startIndex))
    if chunk = [] then fallbackLoop t maxLength (endIndex + 1)
    else chunk :: fallbackLoop t maxLength (endIndex + 1)
  else []
termination_by t.length - startIndex
decreasing_by
  all_goals have h2 := fbEnd_ge t maxLength startIndex h
  all_goals omega

/-- `splitTextIntoChunks` (`src/utils/textSplitter.ts`, lines 10–71).
The entry guard `!text || text.trim().length === 0` is equivalent to
`trimJs text = []`, since the only falsy string is the empty one, whose trim
is also empty. -/
def splitTextIntoChunks (text : List Char) (maxLength : Nat := 400) :
    List (List Char) :=
  if trimJs text = [] then []
  else
    let trimmedText := trimJs text
    if trimmedText.length ≤ maxLength then [trimmedText]
    else
      let sentences := scanSentences trimmedText
      let chunks :=
        if sentences.length > 1 then accumulateSentences maxLength sentences []
        else fallbackLoop trimmedText maxLength 0
      if chunks = [] then [trimmedText] else chunks

/-! ### Structural lemmas about `trimJs` and the two chunking loops -/

theorem head?_dropWhile_not (p : Char → Bool) :
    ∀ (l : List Char) (d : Char), (l.dropWhile p).head? = some d → p d = false := by
  intro l
  induction l with
  | nil => intro d h; simp at h
  | cons c cs ih =>
    intro d h
    by_cases hc : p c
    · rw [List.dropWhile_cons_of_pos hc] at h; exact ih d h
    · rw [List.dropWhile_cons_of_neg hc] at h
      simp at h
      rw [← h]; simpa using hc

theorem getLast?_dropWhile (p : Char → Bool) (l : List Char)
    (h : l.dropWhile p ≠ []) : (l.dropWhile p).getLast? = l.getLast? := by
  obtain ⟨pre, hpre⟩ := List.dropWhile_suffix (l := l) p
  conv_rhs => rw [← hpre]
  exact (List.getLast?_append_of_ne_nil pre h).symm

theorem trimJs_head?_not_ws (s : List Char) (d : Char)
    (h : (trimJs s).head? = some d) : isWsJs d = false := by
  unfold trimJs at h
  rw [List.head?_reverse] at h
  have hne : (s.dropWhile isWsJs).reverse.dropWhile isWsJs ≠ [] := by
    intro hnil; rw [hnil] at h; simp at h
  rw [getLast?_dropWhile _ _ hne, List.getLast?_reverse] at h
  exact head?_dropWhile_not isWsJs s d h

theorem trimJs_getLast?_not_ws (s : List Char) (d : Char)
    (h : (trimJs s).getLast? = some d) : isWsJs d = false := by
  unfold trimJs at h
  rw [List.getLast?_reverse] at h
  exact head?_dropWhile_not isWsJs _ d h

theorem trimJs_length_le (s : List Char) : (trimJs s).length ≤ s.length := by
  unfold trimJs
  calc (((s.dropWhile isWsJs).reverse.dropWhile isWsJs).reverse).length
      = ((s.dropWhile isWsJs).reverse.dropWhile isWsJs).length := by simp
    _ ≤ (s.dropWhile isWsJs).reverse.length := (List.dropWhile_sublist _).length_le
    _ = (s.dropWhile isWsJs).length := by simp
    _ ≤ s.length := (List.dropWhile_sublist _).length_le

theorem hasNonWs_append (a b : List Char) :
    hasNonWs (a ++ b) = (hasNonWs a || hasNonWs b) := by
  simp [hasNonWs]

/-- Every chunk emitted by the sentence-accumulation loop is non-empty and
contains a non-whitespace character, provided `currentChunk` is empty or
already does. -/
theorem accumulateSentences_good (m : Nat) (ss : List (List Char)) :
    ∀ cur, (cur = [] ∨ hasNonWs cur = true) →
      ∀ c ∈ accumulateSentences m ss cur, c ≠ [] ∧ hasNonWs c = true := by
  induction ss with
  | nil =>
    intro cur _ c hc
    rw [accumulateSentences] at hc
    split at hc
    · next hlen =>
      simp at hc
      subst hc
      have hne : trimJs cur ≠ [] := by
        intro hnil; rw [hnil] at hlen; simp at hlen
      exact ⟨hne, hasNonWs_of_trimJs_ne_nil hne⟩
    · simp at hc
  | cons s ss ih =>
    intro cur hcur c hc
    rw [accumulateSentences] at hc
    split at hc
    · exact ih cur hcur c hc
    · next hts =>
      split at hc
      · next hflush =>
        have hcurne : cur ≠ [] := by
          intro hnil; rw [hnil] at hflush; simp at hflush
        have hcurnw : hasNonWs cur = true := hcur.resolve_left hcurne
        have htrimne : trimJs cur ≠ [] := by
          intro hnil
          rw [trimJs_eq_nil_iff] at hnil
          rw [hcurnw] at hnil; simp at hnil
        simp only [List.mem_cons] at hc
        cases hc with
        | inl hceq =>
          subst hceq
          exact ⟨htrimne, hasNonWs_of_trimJs_ne_nil htrimne⟩
        | inr hmem =>
          refine ih _ (Or.inr ?_) c hmem
          have : trimJs s ≠ [] := by
            intro hnil; rw [hnil] at hts; simp at hts
          rw [hasNonWs_append]
          rw [hasNonWs_of_trimJs_ne_nil this]
          rfl
      · refine ih _ (Or.inr ?_) c hc
        have hsne : trimJs s ≠ [] := by
          intro hnil; rw [hnil] at hts; simp at hts
        rw [List.append_assoc, hasNonWs_append, hasNonWs_append]
        rw [hasNonWs_of_trimJs_ne_nil hsne]
        simp

/-- Every chunk emitted by the fallback loop is a non-empty trimmed window of
at most `maxLength` characters: it has a non-whitespace character and neither
starts nor ends with whitespace. -/
theorem fallbackLoop_good (t : List Char) (m : Nat) :
    ∀ s, ∀ c ∈ fallbackLoop t m s,
      c ≠ [] ∧ hasNonWs c = true ∧ c.length ≤ m ∧
        (∀ d, c.head? = some d → isWsJs d = false) ∧
        (∀ d, c.getLast? = some d → isWsJs d = false) := by
  have H : ∀ (n s : Nat), t.length - s = n → ∀ c ∈ fallbackLoop t m s,
      c ≠ [] ∧ hasNonWs c = true ∧ c.length ≤ m ∧
        (∀ d, c.head? = some d → isWsJs d = false) ∧
        (∀ d, c.getLast? = some d → isWsJs d = false) := by
    intro n
    induction n using Nat.strong_induction_on with
    | _ n ih =>
      intro s hn c hc
      rw [fallbackLoop] at hc
      split at hc
      · next hlt =>
        have hge := fbEnd_ge t m s hlt
        have hdec : t.length - (fbEnd t m s + 1) < n := by omega
        dsimp only at hc
        split at hc
        · exact ih _ hdec _ rfl c hc
        · next hne =>
          simp only [List.mem_cons] at hc
          cases hc with
          | inl hceq =>
            subst hceq
            refine ⟨hne, hasNonWs_of_trimJs_ne_nil hne, ?_, ?_, ?_⟩
            · calc (trimJs ((t.drop s).take (fbEnd t m s - s))).length
                  ≤ ((t.drop s).take (fbEnd t m s - s)).length := trimJs_length_le _
                _ ≤ fbEnd t m s - s := by simp
                _ ≤ m := fbEnd_sub_le t m s
            · exact trimJs_head?_not_ws _
            · exact trimJs_getLast?_not_ws _
          | inr hmem => exact ih _ hdec _ rfl c hmem
      · simp at hc
  intro s
  exact H (t.length - s) s rfl

/-- Text containing no sentence-terminating punctuation is matched by the
sentence regex as one single trailing sentence. -/
theorem scanSentences_noTerm (xs : List Char) (hne : xs ≠ [])
    (h : ∀ d ∈ xs, isTerm d = false) : scanSentences xs = [xs] := by
  match xs with
  | [] => exact absurd rfl hne
  | c :: rest =>
    rw [scanSentences]
    have hc : isTerm c = false := h c (List.mem_cons_self c rest)
    have hdrop : rest.dropWhile (fun d => !isTerm d) = [] := by
      rw [List.dropWhile_eq_nil_iff]
      intro x hx
      simp [h x (List.mem_cons_of_mem c hx)]
    have htake : rest.takeWhile (fun d => !isTerm d) = rest := by
      rw [List.takeWhile_eq_self_iff]
      intro x hx
      simp [h x (List.mem_cons_of_mem c hx)]
    rw [hc]
    simp only [Bool.false_eq_true, if_false]
    rw [dif_pos hdrop, htake]

/-- Coverage bound for the fallback loop: the chunks it emits from position
`s` onwards contain at most `t.length - s` characters in total. -/
theorem fallbackLoop_flatten_le (t : List Char) (m : Nat) :
    ∀ s, ((fallbackLoop t m s).flatten).length ≤ t.length - s := by
  have H : ∀ (n s : Nat), t.length - s = n →
      ((fallbackLoop t m s).flatten).length ≤ t.length - s := by
    intro n
    induction n using Nat.strong_induction_on with
    | _ n ih =>
      intro s hn
      rw [fallbackLoop]
      split
      · next hlt =>
        have hge := fbEnd_ge t m s hlt
        have hdec : t.length - (fbEnd t m s + 1) < n := by omega
        have hrec := ih _ hdec (fbEnd t m s + 1) rfl
        have hchunk : (trimJs ((t.drop s).take (fbEnd t m s - s))).length ≤
            fbEnd t m s - s :=
          le_trans (trimJs_length_le _) (by simp)
        have hchunk2 : (trimJs ((t.drop s).take (fbEnd t m s - s))).length ≤
            t.length - s := by
          refine le_trans (trimJs_length_le _) ?_
          calc ((t.drop s).take (fbEnd t m s - s)).length
              ≤ (t.drop s).length := (List.take_sublist _ _).length_le
            _ = t.length - s := by simp
        dsimp only
        split
        · exact le_trans hrec (by omega)
        · simp only [List.flatten_cons, List.length_append]
          omega
      · simp
  intro s
  exact H (t.length - s) s rfl

/-- Strict coverage bound: whenever a full window fits strictly inside the
text, the advance `startIndex = endIndex + 1` drops the character at
`endIndex`, so the fallback chunks cannot cover all of `t`. -/
theorem fallbackLoop_flatten_lt (t : List Char) (m s : Nat)
    (h : s + m < t.length) :
    ((fallbackLoop t m s).flatten).length < t.length - s := by
  have hlt : s < t.length := by omega
  have hge := fbEnd_ge t m s hlt
  have hsub := fbEnd_sub_le t m s
  have hend : fbEnd t m s < t.length := by omega
  have hrec := fallbackLoop_flatten_le t m (fbEnd t m s + 1)
  have hchunk : (trimJs ((t.drop s).take (fbEnd t m s - s))).length ≤
      fbEnd t m s - s :=
    le_trans (trimJs_length_le _) (by simp)
  rw [fallbackLoop]
  rw [dif_pos hlt]
  dsimp only
  split
  · omega
  · simp only [List.flatten_cons, List.length_append]
    omega

theorem fbEnd_pos (t : List Char) (m : Nat) (hm : 1 ≤ m) (hlen : 0 < t.length) :
    1 ≤ fbEnd t m 0 := by
  unfold fbEnd
  split
  · split
    · next hgt => omega
    · omega
  · omega

/-- With a positive window size, the fallback loop always emits at least one
chunk when the text starts with a non-whitespace character (as a trimmed
text does). -/
theorem fallbackLoop_ne_nil (t : List Char) (m : Nat) (hm : 1 ≤ m)
    (hne : t ≠ [])
    (hhead : ∀ d, t.head? = some d → isWsJs d = false) :
    fallbackLoop t m 0 ≠ [] := by
  match t, hne with
  | c :: rest, _ =>
    have hlen : 0 < (c :: rest).length := by simp
    rw [fallbackLoop, dif_pos hlen]
    have hpos := fbEnd_pos (c :: rest) m hm hlen
    have hchunk : trimJs (((c :: rest).drop 0).take (fbEnd (c :: rest) m 0 - 0)) ≠ [] := by
      intro hnil
      rw [trimJs_eq_nil_iff] at hnil
      have hcw : isWsJs c = false := hhead c rfl
      have hcmem : c ∈ ((c :: rest).drop 0).take (fbEnd (c :: rest) m 0 - 0) := by
        simp only [List.drop_zero]
        have : 0 < fbEnd (c :: rest) m 0 - 0 := by omega
        match he : fbEnd (c :: rest) m 0 - 0, this with
        | k + 1, _ => simp [List.take_cons]
      have : hasNonWs (((c :: rest).drop 0).take (fbEnd (c :: rest) m 0 - 0)) = true :=
        List.any_eq_true.mpr ⟨c, hcmem, by simp [hcw]⟩
      rw [this] at hnil
      simp at hnil
    dsimp only
    rw [if_neg hchunk]
    simp

/-! ### Claim theorems about `splitTextIntoChunks` -/

/-- C5: for every input text and maxLength, if the text is empty or
whitespace-only, `splitTextIntoChunks` returns the empty list; otherwise, if
the trimmed text's length is at most `maxLength`, it returns exactly one
chunk equal to the trimmed input. -/
theorem splitTextIntoChunks_empty_and_short (text : List Char) (maxLength : Nat) :
    (trimJs text = [] → splitTextIntoChunks text maxLength = []) ∧
    (trimJs text ≠ [] → (trimJs text).length ≤ maxLength →
      splitTextIntoChunks text maxLength = [trimJs text]) := by
  constructor
  · intro h
    rw [splitTextIntoChunks, if_pos h]
  · intro h hlen
    rw [splitTextIntoChunks, if_neg h]
    dsimp only
    rw [if_pos hlen]

theorem splitTextIntoChunks_empty_and_short_witness :
    splitTextIntoChunks [' ', '\t'] 400 = [] ∧
      splitTextIntoChunks [' ', 'h', 'i', ' '] 400 = [trimJs [' ', 'h', 'i', ' ']] :=
  ⟨(splitTextIntoChunks_empty_and_short [' ', '\t'] 400).1 (by decide),
   (splitTextIntoChunks_empty_and_short [' ', 'h', 'i', ' '] 400).2
     (by decide) (by decide)⟩

/-- C6: no chunk returned by `splitTextIntoChunks` is empty or pure
whitespace; and for text with no sentence punctuation whose trimmed length
exceeds `maxLength`, the result is the fallback path's chunk list (or the
safety-net single chunk if that list is empty), and every chunk the fallback
path produces has length at most `maxLength` (so in particular at most
`maxLength` wherever a space exists to break on) and neither starts nor ends
with whitespace. -/
theorem splitTextIntoChunks_chunk_quality (text : List Char) (maxLength : Nat) :
    (∀ c ∈ splitTextIntoChunks text maxLength, c ≠ [] ∧ hasNonWs c = true) ∧
    ((∀ d ∈ trimJs text, isTerm d = false) → maxLength < (trimJs text).length →
      (splitTextIntoChunks text maxLength =
        (if fallbackLoop (trimJs text) maxLength 0 = []
         then [trimJs text] else fallbackLoop (trimJs text) maxLength 0)) ∧
      ∀ c ∈ fallbackLoop (trimJs text) maxLength 0,
        c.length ≤ maxLength ∧
          (∀ d, c.head? = some d → isWsJs d = false) ∧
          (∀ d, c.getLast? = some d → isWsJs d = false)) := by
  constructor
  · intro c hc
    rw [splitTextIntoChunks] at hc
    split at hc
    · simp at hc
    · next hne =>
      dsimp only at hc
      split at hc
      · simp at hc
        subst hc
        exact ⟨hne, hasNonWs_of_trimJs_ne_nil hne⟩
      · split at hc
        · split at hc
          · simp at hc
            subst hc
            exact ⟨hne, hasNonWs_of_trimJs_ne_nil hne⟩
          · exact accumulateSentences_good maxLength _ [] (Or.inl rfl) c hc
        · split at hc
          · simp at hc
            subst hc
            exact ⟨hne, hasNonWs_of_trimJs_ne_nil hne⟩
          · have h := fallbackLoop_good (trimJs text) maxLength 0 c hc
            exact ⟨h.1, h.2.1⟩
  · intro hterm hlen
    have htne : trimJs text ≠ [] := by
      intro hnil; rw [hnil] at hlen; simp at hlen
    have hscan : scanSentences (trimJs text) = [trimJs text] :=
      scanSentences_noTerm _ htne hterm
    refine ⟨?_, ?_⟩
    · rw [splitTextIntoChunks, if_neg htne]
      dsimp only
      rw [if_neg (by omega), hscan]
      norm_num
    · intro c hc
      have h := fallbackLoop_good (trimJs text) maxLength 0 c hc
      exact ⟨h.2.2.1, h.2.2.2⟩

theorem splitTextIntoChunks_chunk_quality_witness :
    (∀ c ∈ splitTextIntoChunks ['a', 'a', 'a', ' ', 'b', 'b'] 3,
        c ≠ [] ∧ hasNonWs c = true) ∧
    ((splitTextIntoChunks ['a', 'a', 'a', ' ', 'b', 'b'] 3 =
        (if fallbackLoop (trimJs ['a', 'a', 'a', ' ', 'b', 'b']) 3 0 = []
         then [trimJs ['a', 'a', 'a', ' ', 'b', 'b']]
         else fallbackLoop (trimJs ['a', 'a', 'a', ' ', 'b', 'b']) 3 0)) ∧
      ∀ c ∈ fallbackLoop (trimJs ['a', 'a', 'a', ' ', 'b', 'b']) 3 0,
        c.length ≤ 3 ∧
          (∀ d, c.head? = some d → isWsJs d = false) ∧
          (∀ d, c.getLast? = some d → isWsJs d = false)) :=
  ⟨(splitTextIntoChunks_chunk_quality ['a', 'a', 'a', ' ', 'b', 'b'] 3).1,
   (splitTextIntoChunks_chunk_quality ['a', 'a', 'a', ' ', 'b', 'b'] 3).2
     (by decide) (by decide)⟩

/-- C10, counterexample to the claim as stated (which quantifies over every
`maxLength`): at `maxLength = 0` with the space-free, punctuation-free text
`"ab"`, every window is empty, the loop pushes no chunk, and the safety net
returns the whole trimmed text — so the concatenation of the returned chunks
equals the trimmed input instead of being strictly shorter. -/
theorem splitTextIntoChunks_windowDrop_counterexample :
    (∀ d ∈ trimJs ['a', 'b'], isTerm d = false) ∧
      (0 : Nat) < (trimJs ['a', 'b']).length ∧
      (∀ d ∈ trimJs ['a', 'b'], d ≠ ' ') ∧
      (splitTextIntoChunks ['a', 'b'] 0).flatten = trimJs ['a', 'b'] := by
  refine ⟨by decide, by decide, by decide, ?_⟩
  simp [splitTextIntoChunks, scanSentences, fallbackLoop, fbEnd, lastSpaceIdx,
    trimJs, isWsJs, isTerm]

/-- C10, amended: for every positive `maxLength`, for text with no
sentence-ending punctuation, no space, and trimmed length exceeding
`maxLength`, the index advance `startIndex = endIndex + 1` drops the
character at each window boundary, so the concatenation of the returned
chunks is strictly shorter than the trimmed input and does not
reconstruct it. -/
theorem splitTextIntoChunks_windowDrop (text : List Char) (maxLength : Nat)
    (hm : 1 ≤ maxLength)
    (hterm : ∀ d ∈ trimJs text, isTerm d = false)
    (hlen : maxLength < (trimJs text).length)
    (_hsp : ∀ d ∈ trimJs text, d ≠ ' ') :
    ((splitTextIntoChunks text maxLength).flatten).length < (trimJs text).length ∧
      (splitTextIntoChunks text maxLength).flatten ≠ trimJs text := by
  have htne : trimJs text ≠ [] := by
    intro hnil; rw [hnil] at hlen; simp at hlen
  have hscan : scanSentences (trimJs text) = [trimJs text] :=
    scanSentences_noTerm _ htne hterm
  have hfb : fallbackLoop (trimJs text) maxLength 0 ≠ [] :=
    fallbackLoop_ne_nil (trimJs text) maxLength hm htne
      (fun d hd => trimJs_head?_not_ws text d hd)
  have hsplit : splitTextIntoChunks text maxLength =
      fallbackLoop (trimJs text) maxLength 0 := by
    rw [splitTextIntoChunks, if_neg htne]
    dsimp only
    rw [if_neg (by omega), hscan]
    norm_num
    intro h
    exact absurd h hfb
  have hstrict : ((fallbackLoop (trimJs text) maxLength 0).flatten).length <
      (trimJs text).length := by
    have h := fallbackLoop_flatten_lt (trimJs text) maxLength 0 (by omega)
    simpa using h
  rw [hsplit]
  refine ⟨hstrict, ?_⟩
  intro heq
  rw [heq] at hstrict
  omega

theorem splitTextIntoChunks_windowDrop_witness :
    ((splitTextIntoChunks ['a', 'b', 'c'] 1).flatten).length <
        (trimJs ['a', 'b', 'c']).length ∧
      (splitTextIntoChunks ['a', 'b', 'c'] 1).flatten ≠ trimJs ['a', 'b', 'c'] :=
  splitTextIntoChunks_windowDrop ['a', 'b', 'c'] 1
    (by decide) (by decide) (by decide) (by decide)

/-! ## Local TTS client (`fetchSpeechFromLocalServer`, `src/unnamed/part_003`)

The character classes `\p{L}` (any Unicode letter) and `\p{N}` (any Unicode
number) of the sanitization regex are kept as parameters `isL`, `isN` of the
model, so every theorem below holds for the actual Unicode classification. -/

/-- The allowed-character class of the sanitization regex
`[^\p{L}\p{N}\s.,!?:…]`: Unicode letters, Unicode numbers, whitespace, and
the punctuation set `. , ! ? : …`. -/
def isAllowedTts (isL isN : Char → Bool) (c : Char) : Bool :=
  isL c || isN c || isWsJs c ||
    (c = '.' || c = ',' || c = '!' || c = '?' || c = ':' || c = '…')

/-- First sanitization step `text.replace(/[^\p{L}\p{N}\s.,!?:…]/gu, ' ')`:
each character outside the allowed class is replaced by a space (never
deleted). -/
def replaceDisallowed (isL isN : Char → Bool) (s : List Char) : List Char :=
  s.map (fun c => if isAllowedTts isL isN c then c else ' ')

/-- Second sanitization step `.replace(/\s+/g, ' ')`: each maximal run of
whitespace is replaced by a single space. -/
def collapseWs (s : List Char) : List Char :=
  match s with
  | [] => []
  | c :: rest =>
    if isWsJs c then ' ' :: collapseWs (rest.dropWhile isWsJs)
    else c :: collapseWs rest
termination_by s.length
decreasing_by
  · have := (List.dropWhile_sublist (l := rest) isWsJs).length_le
    simp only [List.length_cons]
    omega
  · simp

/-- The fields of the JSON body POSTed to `<serverUrl>/speak`. -/
structure SpeakRequest where
  url : List Char
  text : List Char
  language : List Char
  accent : List Char
  voice : List Char
deriving Repr, DecidableEq

/-- `fetchSpeechFromLocalServer` (`src/unnamed/part_003`, lines 20–59), up to
the point where the HTTP request is issued: the guards and the sanitization
pipeline.  `.ok` carries the request that would be POSTed; `.error` carries
the `TtsError` message.  (`!text || text.trim().length === 0` is equivalent
to `trimJs text = []`; an unconfigured server URL is the empty string.) -/
def fetchSpeechFromLocalServer (isL isN : Char → Bool) (serverUrl text : List Char) :
    Except (List Char) SpeakRequest :=
  if trimJs text = [] then .error ("Cannot generate audio from empty text.".toList)
  else if serverUrl = [] then
    .error ("TTS Server URL is not configured. Please check your settings.".toList)
  else
    let cleanedText := trimJs (collapseWs (replaceDisallowed isL isN text))
    if cleanedText = [] then .error ("Text became empty after sanitization.".toList)
    else .ok ⟨serverUrl, cleanedText, "vi".toList, "vi_VN".toList, []⟩

/-! ### Lemmas about the sanitization pipeline -/

theorem filter_nonWs_dropWhile (s : List Char) :
    (s.dropWhile isWsJs).filter (fun c => !isWsJs c) =
      s.filter (fun c => !isWsJs c) := by
  induction s with
  | nil => rfl
  | cons c cs ih =>
    by_cases hc : isWsJs c
    · rw [List.dropWhile_cons_of_pos hc, ih, List.filter_cons_of_neg (by simp [hc])]
    · rw [List.dropWhile_cons_of_neg hc]

theorem filter_nonWs_trimJs (s : List Char) :
    (trimJs s).filter (fun c => !isWsJs c) = s.filter (fun c => !isWsJs c) := by
  unfold trimJs
  rw [List.filter_reverse, filter_nonWs_dropWhile, List.filter_reverse,
    List.reverse_reverse, filter_nonWs_dropWhile]

theorem filter_nonWs_collapseWs (s : List Char) :
    (collapseWs s).filter (fun c => !isWsJs c) = s.filter (fun c => !isWsJs c) := by
  have H : ∀ (n : Nat) (s : List Char), s.length = n →
      (collapseWs s).filter (fun c => !isWsJs c) = s.filter (fun c => !isWsJs c) := by
    intro n
    induction n using Nat.strong_induction_on with
    | _ n ih =>
      intro s hn
      match s with
      | [] => simp [collapseWs]
      | c :: rest =>
        rw [collapseWs]
        by_cases hc : isWsJs c
        · rw [if_pos hc]
          have hd : (rest.dropWhile isWsJs).length ≤ rest.length :=
            (List.dropWhile_sublist _).length_le
          have := ih (rest.dropWhile isWsJs).length (by simp at hn; omega) _ rfl
          rw [List.filter_cons_of_neg (by decide), this, filter_nonWs_dropWhile,
            List.filter_cons_of_neg (by simp [hc])]
        · rw [if_neg hc]
          have := ih rest.length (by simp at hn; omega) rest rfl
          rw [List.filter_cons_of_pos (by simp [hc]), this,
            List.filter_cons_of_pos (by simp [hc])]
  exact H s.length s rfl

theorem filter_nonWs_replaceDisallowed (isL isN : Char → Bool) (s : List Char) :
    (replaceDisallowed isL isN s).filter (fun c => !isWsJs c) =
      s.filter (fun c => isAllowedTts isL isN c && !isWsJs c) := by
  induction s with
  | nil => rfl
  | cons c cs ih =>
    simp only [replaceDisallowed, List.map_cons] at ih ⊢
    by_cases ha : isAllowedTts isL isN c
    · rw [if_pos ha]
      by_cases hw : isWsJs c
      · rw [List.filter_cons_of_neg (by simp [hw]),
          List.filter_cons_of_neg (by simp [hw]), ih]
      · rw [List.filter_cons_of_pos (by simp [hw]),
          List.filter_cons_of_pos (by simp [ha, hw]), ih]
    · rw [if_neg ha]
      rw [List.filter_cons_of_neg (by decide),
        List.filter_cons_of_neg (by simp [ha]), ih]

theorem collapseWs_ws_eq_space (s : List Char) :
    ∀ c ∈ collapseWs s, isWsJs c = true → c = ' ' := by
  have H : ∀ (n : Nat) (s : List Char), s.length = n →
      ∀ c ∈ collapseWs s, isWsJs c = true → c = ' ' := by
    intro n
    induction n using Nat.strong_induction_on with
    | _ n ih =>
      intro s hn c hc hw
      match s with
      | [] => simp [collapseWs] at hc
      | d :: rest =>
        rw [collapseWs] at hc
        by_cases hd : isWsJs d
        · rw [if_pos hd] at hc
          simp only [List.mem_cons] at hc
          cases hc with
          | inl h => exact h
          | inr h =>
            have hlen : (rest.dropWhile isWsJs).length ≤ rest.length :=
              (List.dropWhile_sublist _).length_le
            exact ih (rest.dropWhile isWsJs).length (by simp at hn; omega) _ rfl c h hw
        · rw [if_neg hd] at hc
          simp only [List.mem_cons] at hc
          cases hc with
          | inl h => subst h; exact absurd hw (by simp [hd])
          | inr h => exact ih rest.length (by simp at hn; omega) rest rfl c h hw
  exact H s.length s rfl

/-- No two adjacent characters of `l` are both whitespace. -/
def noAdjWs (l : List Char) : Prop :=
  ∀ l₁ (a b : Char) l₂, l = l₁ ++ a :: b :: l₂ → ¬(isWsJs a = true ∧ isWsJs b = true)

theorem noAdjWs_nil : noAdjWs [] := by
  intro l₁ a b l₂ h
  exact absurd h (by simp)

theorem noAdjWs_cons (x : Char) (xs : List Char) :
    noAdjWs (x :: xs) ↔
      ((∀ y, xs.head? = some y → ¬(isWsJs x = true ∧ isWsJs y = true)) ∧ noAdjWs xs) := by
  constructor
  · intro h
    refine ⟨?_, ?_⟩
    · intro y hy
      cases xs with
      | nil => simp at hy
      | cons z tl =>
        have hz : z = y := by simpa using hy
        subst hz
        exact h [] x z tl rfl
    · intro l₁ a b l₂ hl
      exact h (x :: l₁) a b l₂ (by simp [hl])
  · rintro ⟨h1, h2⟩ l₁ a b l₂ hl
    cases l₁ with
    | nil =>
      simp only [List.nil_append, List.cons.injEq] at hl
      obtain ⟨hxa, hxs⟩ := hl
      subst hxa
      exact h1 b (by rw [hxs]; rfl)
    | cons z l₁' =>
      simp only [List.cons_append, List.cons.injEq] at hl
      exact h2 l₁' a b l₂ hl.2

theorem noAdjWs_reverse {l : List Char} (h : noAdjWs l) : noAdjWs l.reverse := by
  intro l₁ a b l₂ hl
  have : l = l₂.reverse ++ b :: a :: l₁.reverse := by
    have := congrArg List.reverse hl
    rw [List.reverse_reverse] at this
    rw [this]
    simp
  have hres := h l₂.reverse b a l₁.reverse this
  tauto

theorem noAdjWs_dropWhile {l : List Char} (p : Char → Bool) (h : noAdjWs l) :
    noAdjWs (l.dropWhile p) := by
  intro l₁ a b l₂ hl
  have hsplit : l.takeWhile p ++ l.dropWhile p = l :=
    List.takeWhile_append_dropWhile p l
  refine h (l.takeWhile p ++ l₁) a b l₂ ?_
  conv_lhs => rw [← hsplit]
  rw [hl, List.append_assoc]

theorem noAdjWs_trimJs {l : List Char} (h : noAdjWs l) : noAdjWs (trimJs l) := by
  unfold trimJs
  exact noAdjWs_reverse (noAdjWs_dropWhile _ (noAdjWs_reverse (noAdjWs_dropWhile _ h)))

theorem collapseWs_head?_after_drop (s : List Char) (y : Char)
    (h : (collapseWs (s.dropWhile isWsJs)).head? = some y) : isWsJs y = false := by
  match hdw : s.dropWhile isWsJs with
  | [] => rw [hdw] at h; simp [collapseWs] at h
  | d :: tl =>
    have hd : isWsJs d = false := head?_dropWhile_not isWsJs s d (by rw [hdw]; rfl)
    rw [hdw, collapseWs, if_neg (by simp [hd])] at h
    simp at h
    rw [← h]; exact hd

theorem noAdjWs_collapseWs (s : List Char) : noAdjWs (collapseWs s) := by
  have H : ∀ (n : Nat) (s : List Char), s.length = n → noAdjWs (collapseWs s) := by
    intro n
    induction n using Nat.strong_induction_on with
    | _ n ih =>
      intro s hn
      match s with
      | [] => rw [collapseWs]; exact noAdjWs_nil
      | c :: rest =>
        rw [collapseWs]
        by_cases hc : isWsJs c
        · rw [if_pos hc, noAdjWs_cons]
          have hlen : (rest.dropWhile isWsJs).length ≤ rest.length :=
            (List.dropWhile_sublist _).length_le
          refine ⟨?_, ih (rest.dropWhile isWsJs).length (by simp at hn; omega) _ rfl⟩
          intro y hy hcon
          have := collapseWs_head?_after_drop rest y hy
          exact absurd hcon.2 (by simp [this])
        · rw [if_neg hc, noAdjWs_cons]
          refine ⟨?_, ih rest.length (by simp at hn; omega) rest rfl⟩
          intro y _ hcon
          exact absurd hcon.1 hc
  exact H s.length s rfl

theorem mem_trimJs {c : Char} {s : List Char} (h : c ∈ trimJs s) : c ∈ s := by
  unfold trimJs at h
  rw [List.mem_reverse] at h
  have h2 := (List.dropWhile_sublist (l := (s.dropWhile isWsJs).reverse) isWsJs).subset h
  rw [List.mem_reverse] at h2
  exact (List.dropWhile_sublist (l := s) isWsJs).subset h2

/-- C7: for every non-empty input text (and configured server URL), the local
TTS client's sanitization (i) replaces each character outside Unicode
letters, Unicode digits, whitespace, and the punctuation set `. , ! ? : …`
with a space — never deleting it (the replaced string has the same length and
agrees pointwise with the replacement rule); (ii) then collapses every run of
whitespace to a single space and trims the result (the sanitized text keeps
exactly the allowed non-whitespace characters, has no two adjacent
whitespace characters, every whitespace in it is a plain space, and it
neither starts nor ends with whitespace); and (iii) if the sanitized string
is empty, `fetchSpeech` fails with the domain-specific TTS error instead of
issuing a request, and otherwise issues the request with the sanitized
text. -/
theorem fetchSpeech_sanitization (isL isN : Char → Bool) (serverUrl text : List Char)
    (htext : trimJs text ≠ []) (hurl : serverUrl ≠ []) :
    (replaceDisallowed isL isN text).length = text.length ∧
    (∀ i : Nat, (replaceDisallowed isL isN text)[i]? =
        (text[i]?).map (fun c => if isAllowedTts isL isN c then c else ' ')) ∧
    ((trimJs (collapseWs (replaceDisallowed isL isN text))).filter (fun c => !isWsJs c) =
        text.filter (fun c => isAllowedTts isL isN c && !isWsJs c)) ∧
    noAdjWs (trimJs (collapseWs (replaceDisallowed isL isN text))) ∧
    (∀ c ∈ trimJs (collapseWs (replaceDisallowed isL isN text)),
        isWsJs c = true → c = ' ') ∧
    (∀ d, (trimJs (collapseWs (replaceDisallowed isL isN text))).head? = some d →
        isWsJs d = false) ∧
    (∀ d, (trimJs (collapseWs (replaceDisallowed isL isN text))).getLast? = some d →
        isWsJs d = false) ∧
    (trimJs (collapseWs (replaceDisallowed isL isN text)) = [] →
        fetchSpeechFromLocalServer isL isN serverUrl text =
          .error ("Text became empty after sanitization.".toList)) ∧
    (trimJs (collapseWs (replaceDisallowed isL isN text)) ≠ [] →
        fetchSpeechFromLocalServer isL isN serverUrl text =
          .ok ⟨serverUrl, trimJs (collapseWs (replaceDisallowed isL isN text)),
            "vi".toList, "vi_VN".toList, []⟩) := by
  refine ⟨?_, ?_, ?_, ?_, ?_, ?_, ?_, ?_, ?_⟩
  · simp [replaceDisallowed]
  · intro i
    simp [replaceDisallowed]
  · rw [filter_nonWs_trimJs, filter_nonWs_collapseWs, filter_nonWs_replaceDisallowed]
  · exact noAdjWs_trimJs (noAdjWs_collapseWs _)
  · intro c hc hw
    exact collapseWs_ws_eq_space _ c (mem_trimJs hc) hw
  · exact fun d => trimJs_head?_not_ws _ d
  · exact fun d => trimJs_getLast?_not_ws _ d
  · intro hnil
    rw [fetchSpeechFromLocalServer, if_neg htext, if_neg hurl]
    dsimp only
    rw [if_pos hnil]
  · intro hne
    rw [fetchSpeechFromLocalServer, if_neg htext, if_neg hurl]
    dsimp only
    rw [if_neg hne]

theorem fetchSpeech_sanitization_witness :
    (replaceDisallowed Char.isAlpha Char.isDigit ['h', 'i', '@']).length =
        (['h', 'i', '@'] : List Char).length ∧
      (trimJs (collapseWs (replaceDisallowed Char.isAlpha Char.isDigit
          ['h', 'i', '@']))).filter (fun c => !isWsJs c) =
        (['h', 'i', '@'] : List Char).filter
          (fun c => isAllowedTts Char.isAlpha Char.isDigit c && !isWsJs c) :=
  ⟨(fetchSpeech_sanitization Char.isAlpha Char.isDigit ['u'] ['h', 'i', '@']
      (by decide) (by decide)).1,
   (fetchSpeech_sanitization Char.isAlpha Char.isDigit ['u'] ['h', 'i', '@']
      (by decide) (by decide)).2.2.1⟩

/-! ## Domain model (`types.ts`) and the local book store (`useBookStore.ts`) -/

structure Position where
  chapterIndex : Nat
  sentenceIndex : Nat
deriving Repr, DecidableEq

structure Chapter where
  id : List Char
  title : List Char
  content : List Char
deriving Repr, DecidableEq

structure Book where
  id : List Char
  title : List Char
  author : Option (List Char) := none
  coverImage : Option (List Char) := none
  chapters : List Chapter := []
  lastPosition : Option Position := none
deriving Repr, DecidableEq

/-! Each store operation of `useBookStore` awaits the durable Dexie write
inside `try { ... }` and performs the `setBooks` in-memory update on the
line after the `await`; if the write rejects, control jumps to the `catch`
(which only logs) and `setBooks` is never reached.  `dbOk` models whether
the durable write resolved. -/

/-- `addBook` (`useBookStore.ts`, lines 26–33). -/
def addBook (dbOk : Bool) (books : List Book) (newBook : Book) : List Book :=
  if dbOk then books ++ [newBook] else books

/-- `deleteBook` (`useBookStore.ts`, lines 35–42). -/
def deleteBook (dbOk : Bool) (books : List Book) (bookId : List Char) : List Book :=
  if dbOk then books.filter (fun b => b.id ≠ bookId) else books

/-- `updateBook` (`useBookStore.ts`, lines 44–57). -/
def updateBook (dbOk : Bool) (books : List Book) (updatedBook : Book) : List Book :=
  if dbOk then
    books.map (fun b => if b.id = updatedBook.id then updatedBook else b)
  else books

/-- `updateBookPosition` (`useBookStore.ts`, lines 59–72). -/
def updateBookPosition (dbOk : Bool) (books : List Book) (bookId : List Char)
    (lastPosition : Position) : List Book :=
  if dbOk then
    books.map (fun b =>
      if b.id = bookId then { b with lastPosition := some lastPosition } else b)
  else books

/-- C2 counterexample: the store is not optimistic.  With a failing durable
write, `addBook` leaves the in-memory list without the new book and
`deleteBook` leaves the deleted book in place — the in-memory list does not
reflect the mutation. -/
theorem bookStore_optimistic_counterexample :
    addBook false [] { id := ['b'], title := ['t'] } = [] ∧
      deleteBook false [{ id := ['b'], title := ['t'] }] ['b'] =
        [{ id := ['b'], title := ['t'] }] := by
  decide

/-- C2, amended: every mutating book-store operation performs the in-memory
update only after the durable write succeeds.  When the durable write fails,
the mutation is not applied: the in-memory list is left unchanged (the
failure is only logged); when it succeeds, the in-memory list reflects the
mutation. -/
theorem bookStore_writeThrough (books : List Book) (b : Book)
    (bookId : List Char) (p : Position) :
    (addBook false books b = books ∧
      deleteBook false books bookId = books ∧
      updateBook false books b = books ∧
      updateBookPosition false books bookId p = books) ∧
    (b ∈ addBook true books b ∧
      (∀ x ∈ deleteBook true books bookId, x.id ≠ bookId) ∧
      (b.id ∈ (books.map (fun x => x.id)) → b ∈ updateBook true books b) ∧
      (∀ x ∈ updateBookPosition true books bookId p,
        x.id = bookId → x.lastPosition = some p)) := by
  refine ⟨⟨rfl, rfl, rfl, rfl⟩, ?_, ?_, ?_, ?_⟩
  · simp [addBook]
  · intro x hx
    simp only [deleteBook, if_true, List.mem_filter] at hx
    simpa using hx.2
  · intro hid
    simp only [List.mem_map] at hid
    obtain ⟨x, hx, hxid⟩ := hid
    simp only [updateBook, if_true, List.mem_map]
    exact ⟨x, hx, by rw [if_pos hxid]⟩
  · intro x hx hid
    simp only [updateBookPosition, if_true, List.mem_map] at hx
    obtain ⟨y, _, hy⟩ := hx
    by_cases hyid : y.id = bookId
    · rw [if_pos hyid] at hy
      rw [← hy]
    · rw [if_neg hyid] at hy
      subst hy
      exact absurd hid hyid

/-! ## Backup restore (`SettingsPage.handleRestore` and
`UserSwitcherModal.handleRestore`) -/

/-- A JavaScript value, as far as the two restore validations can observe
one: the object case is opaque because neither validation inspects fields
beyond `books`/`settings` themselves. -/
inductive JsVal where
  | null
  | undef
  | bool (b : Bool)
  | num (n : Int)
  | str (s : List Char)
  | arr (elems : List JsVal)
  | obj

/-- JavaScript truthiness (`NaN` is not modelled; it is falsy like `0`). -/
def truthy : JsVal → Bool
  | .null => false
  | .undef => false
  | .bool b => b
  | .num n => n ≠ 0
  | .str s => s ≠ []
  | .arr _ => true
  | .obj => true

/-- `Array.isArray(v)`. -/
def isArray : JsVal → Bool
  | .arr _ => true
  | _ => false

/-- `typeof v === 'object' && v !== null` (arrays and `null` have
`typeof` `'object'`; `null` is excluded explicitly). -/
def isObjectNonNull : JsVal → Bool
  | .arr _ => true
  | .obj => true
  | _ => false

/-- The fetched backup payload as the validations see it. -/
structure BackupPayload where
  books : JsVal
  settings : JsVal

/-- The validation guarding the Settings view restore
(`SettingsPage.tsx`, line 88):
`Array.isArray(data.books) && typeof data.settings === 'object' && data.settings !== null`. -/
def settingsPageAccepts (p : BackupPayload) : Bool :=
  isArray p.books && isObjectNonNull p.settings

/-- The validation guarding the Profile Switcher restore
(`UserSwitcherModal.handleRestore`, line 470): `data.books && data.settings`. -/
def userSwitcherAccepts (p : BackupPayload) : Bool :=
  truthy p.books && truthy p.settings

/-- C4 counterexample: a payload whose `books` is a plain (non-array) object
and whose `settings` is an object passes the Profile Switcher's truthiness
check but fails the Settings view's `Array.isArray` check — the two flows do
not apply the same validation, and the Switcher accepts a payload without a
books list. -/
theorem restore_validation_counterexample :
    userSwitcherAccepts { books := JsVal.obj, settings := JsVal.obj } = true ∧
      settingsPageAccepts { books := JsVal.obj, settings := JsVal.obj } = false := by
  decide

/-- C4, amended: the two validations differ, but the Settings view's check is
strictly stronger: it accepts exactly the payloads whose `books` is an array
and whose `settings` is a non-null object, and every payload it accepts is
also accepted by the Profile Switcher's truthiness check. -/
theorem restore_validation_implication (p : BackupPayload)
    (h : settingsPageAccepts p = true) : userSwitcherAccepts p = true := by
  rcases p with ⟨books, settings⟩
  simp only [settingsPageAccepts, Bool.and_eq_true] at h
  obtain ⟨hb, hs⟩ := h
  simp only [userSwitcherAccepts, Bool.and_eq_true]
  constructor
  · cases books <;> simp_all [isArray, truthy]
  · cases settings <;> simp_all [isObjectNonNull, truthy]

theorem restore_validation_implication_witness :
    userSwitcherAccepts { books := JsVal.arr [], settings := JsVal.obj } = true :=
  restore_validation_implication { books := JsVal.arr [], settings := JsVal.obj }
    (by decide)

/-- The `db.transaction('rw', db.books, ...)` body shared verbatim by both
restore flows: `await db.books.clear(); await db.books.bulkAdd(data.books)`.
Dexie's `bulkAdd` rejects on a key-constraint violation, which aborts the
transaction and rolls the table back; after `clear` the table is empty, so
the only remaining constraint is distinctness of the payload's own ids.  The
returned flag says whether the transaction committed. -/
def restoreBooksTx (table : List Book) (payloadBooks : List Book) :
    Bool × List Book :=
  if (payloadBooks.map (fun b => b.id)).Nodup then (true, payloadBooks)
  else (false, table)

/-- C3: for every prior persisted collection and every payload, after the
shared restore transaction completes successfully the persisted book ids are
exactly the payload's ids, and no book of the prior collection survives
unless the payload itself carries its id. -/
theorem restore_replaces_books (table payloadBooks result : List Book)
    (h : restoreBooksTx table payloadBooks = (true, result)) :
    (result.map (fun b => b.id)).toFinset =
        (payloadBooks.map (fun b => b.id)).toFinset ∧
      (∀ b ∈ result, b ∈ payloadBooks) ∧
      (∀ b ∈ table, (∀ q ∈ payloadBooks, q.id ≠ b.id) →
        ∀ r ∈ result, r.id ≠ b.id) := by
  rw [restoreBooksTx] at h
  split at h
  · injection h with h1 h2
    subst h2
    refine ⟨rfl, fun b hb => hb, ?_⟩
    intro b _ hq r hr
    exact hq r hr
  · injection h with h1 h2
    simp at h1

/-! ## File import parser (`src/services/parser.ts`) -/

/-- `String.prototype.toLowerCase`, restricted to ASCII letters plus the
uppercase forms of the Vietnamese letters appearing in `JUNK_TITLE_REGEX`
(`Ư`, `Á`, `Đ`, `Ị`, `Ơ`); the parser only compares against ASCII or that
pattern, so other characters pass through unchanged. -/
def charLower (c : Char) : Char :=
  if 'A' ≤ c ∧ c ≤ 'Z' then Char.ofNat (c.toNat + 32)
  else if c = 'Ư' then 'ư'
  else if c = 'Á' then 'á'
  else if c = 'Đ' then 'đ'
  else if c = 'Ị' then 'ị'
  else if c = 'Ơ' then 'ơ'
  else c

def lowerList (s : List Char) : List Char := s.map charLower

/-- `file.name.replace(/\.[^/.]+$/, "")`: strip a final dot-extension made
of one or more characters none of which is `/` or `.`. -/
def stripExt (name : List Char) : List Char :=
  let rev := name.reverse
  let ext := rev.takeWhile (fun c => decide (c ≠ '.' ∧ c ≠ '/'))
  match rev.drop ext.length with
  | '.' :: restRev => if ext = [] then name else restRev.reverse
  | _ => name

/-- Does `chapter <digit>` start (case-insensitively) at this position?
This is where the TXT chapter regex `/(?=^Chapter \d+|CHAPTER \d+)/im`
matches: under the `i` flag the unanchored second alternative is a
case-insensitive copy of the first that subsumes its `^` anchor, so the
lookahead matches exactly at these positions. -/
def isChapterAt (xs : List Char) : Bool :=
  decide (lowerList (xs.take 8) = "chapter ".toList) &&
    ((xs.drop 8).head?.map Char.isDigit).getD false

/-- `fileContent.split(/(?=^Chapter \d+|CHAPTER \d+)/im)`: per the
ECMAScript `split` algorithm a zero-width match at the current segment
start produces no empty segment, so the scan cuts at every later match
position. -/
def splitAtChaptersAux : List Char → List Char → List (List Char)
  | [], cur => [cur.reverse]
  | c :: rest, cur =>
    if cur ≠ [] ∧ isChapterAt (c :: rest) then
      cur.reverse :: splitAtChaptersAux rest [c]
    else
      splitAtChaptersAux rest (c :: cur)

def splitAtChapters (s : List Char) : List (List Char) :=
  splitAtChaptersAux s []

/-- `title.replace(JUNK_TITLE_REGEX, '')` with
`JUNK_TITLE_REGEX = /^Chưa xác định( Chương \d+)?:?\s*/i` (`parser.ts`,
line 9): nothing follows the optional pieces, so greedy matching needs no
backtracking. -/
def junkStrip (s : List Char) : List Char :=
  if lowerList (s.take 13) = "chưa xác định".toList then
    let rest := s.drop 13
    let rest1 :=
      if lowerList (rest.take 8) = " chương ".toList ∧
          ((rest.drop 8).head?.map Char.isDigit).getD false then
        (rest.drop 8).dropWhile Char.isDigit
      else rest
    let rest2 := match rest1 with
      | ':' :: r => r
      | r => r
    rest2.dropWhile isWsJs
  else s

/-- `content.split('\n')`. -/
def splitLines (s : List Char) : List (List Char) := s.splitOn '\n'

/-- `content.split('\n').find(line => line.trim().length > 0)?.trim()`. -/
def getFirstContentLine (content : List Char) : Option (List Char) :=
  ((splitLines content).find? (fun line => decide (0 < (trimJs line).length))).map trimJs

/-- The repeating-header heuristic shared by both parsing paths
(`parser.ts`, lines 49–59 and 183–192): when there are at least two raw
chapters whose first non-blank content lines exist, are longer than 5
characters, and are identical, that line is the repeating header. -/
def detectRepeatingHeader (rawChapters : List Chapter) : Option (List Char) :=
  match rawChapters with
  | c1 :: c2 :: _ =>
    match getFirstContentLine c1.content, getFirstContentLine c2.content with
    | some l1, some l2 =>
      if l1 ≠ [] ∧ 5 < l1.length ∧ l1 = l2 then some l1 else none
    | _, _ => none
  | _ => none

/-- The per-chapter content cleanup of the TXT path (`parser.ts`,
lines 69–78): trim and drop blank lines, shift off a detected repeating
header, then shift off a line equal (case-insensitively) to the book
title. -/
def cleanTxtChapterLines (repeatingHeader : Option (List Char))
    (bookTitle content : List Char) : List (List Char) :=
  let lines := ((splitLines content).map trimJs).filter (fun l => decide (0 < l.length))
  let lines1 := match repeatingHeader, lines with
    | some h, l0 :: rest => if l0 = h then rest else lines
    | _, _ => lines
  match lines1 with
  | l0 :: rest => if lowerList l0 = lowerList bookTitle then rest else lines1
  | [] => lines1

/-- `parseTxt` (`parser.ts`, lines 11–99).  `generateId()` yields opaque
fresh clock+random tokens; the model draws them positionally from the
supply `genId` (their values are immaterial to every claim).  The promise's
resolve/reject is an `Except`; the `!fileContent` falsy guard is
`fileContent = []`. -/
def parseTxt (genId : Nat → List Char) (fileName fileContent : List Char) :
    Except (List Char) Book :=
  if fileContent = [] then .error "File is empty or could not be read.".toList
  else
    let bookTitle := stripExt fileName
    let parts := (splitAtChapters fileContent).filter (fun part => trimJs part ≠ [])
    if parts.length ≤ 1 then
      let lines := ((splitLines fileContent).map trimJs).filter (fun l => decide (0 < l.length))
      let lines1 := match lines with
        | l0 :: rest => if lowerList l0 = lowerList bookTitle then rest else lines
        | [] => lines
      .ok { id := genId 1, title := bookTitle,
            chapters := [{ id := genId 0, title := "Full Text".toList,
                           content := trimJs (List.intercalate ['\n'] lines1) }] }
    else
      let rawChapters := parts.enum.map (fun (p : Nat × List Char) =>
        let ls := splitLines p.2
        ({ id := genId p.1, title := trimJs (ls.head?.getD []),
           content := trimJs (List.intercalate ['\n'] ls.tail) } : Chapter))
      let repeatingHeader := detectRepeatingHeader rawChapters
      let chapters := rawChapters.enum.filterMap (fun (p : Nat × Chapter) =>
        let chapter := p.2
        let cleanedTitle0 := trimJs (junkStrip chapter.title)
        let cleanedTitle := if cleanedTitle0 = [] then
            "Chapter ".toList ++ (Nat.repr (p.1 + 1)).toList
          else cleanedTitle0
        let lines := cleanTxtChapterLines repeatingHeader bookTitle chapter.content
        if 0 < lines.length then
          some ⟨chapter.id, cleanedTitle, List.intercalate ['\n'] lines⟩
        else none)
      .ok { id := genId parts.length, title := bookTitle, chapters := chapters }

/-! ### EPUB path -/

/-- One spine item together with the outcome of its per-chapter processing.
`id` is `item.id` when truthy (the empty string counts as absent);
`tocLabel` is `item.toc?.label`; `extracted` is `none` when the chapter
promise rejected (load/serialization failure) and otherwise the trimmed
`textContent` of the stripped HTML. -/
structure SpineItem where
  id : Option (List Char) := none
  tocLabel : Option (List Char) := none
  extracted : Option (List Char) := none

/-- The inputs of `parseEpub` after the third-party EPUB library has done
container/spine/metadata extraction. -/
structure EpubInput where
  fileName : List Char
  /-- `metadata.title`; the empty string is falsy and falls back to the
  file name. -/
  metadataTitle : List Char := []
  metadataCreator : Option (List Char) := none
  spine : List SpineItem
  /-- Cover data URL when cover resolution succeeded (failures only log). -/
  coverImage : Option (List Char) := none

/-- Chapter title computation inside the spine-item promise (`parser.ts`,
lines 159–163): `item.toc?.label?.trim() || ''`, junk-stripped, with the
`Chapter <n>` fallback. -/
def epubChapterTitle (item : SpineItem) (index : Nat) : List Char :=
  let originalTitle := trimJs (item.tocLabel.getD [])
  let finalTitle := trimJs (junkStrip originalTitle)
  if finalTitle = [] then "Chapter ".toList ++ (Nat.repr (index + 1)).toList
  else finalTitle

/-- The surviving raw chapters (`parser.ts`, lines 172–181): fulfilled
results with truthy (non-empty) content, in spine order. -/
def epubRawChapters (genId : Nat → List Char) (spine : List SpineItem) :
    List Chapter :=
  spine.enum.filterMap (fun (p : Nat × SpineItem) =>
    match p.2.extracted with
    | some txt =>
      if txt ≠ [] then
        some { id := p.2.id.getD (genId p.1), title := epubChapterTitle p.2 p.1,
               content := txt }
      else none
    | none => none)

/-- The cleaned chapters (`parser.ts`, lines 194–211): per-chapter line
cleanup — repeating header, book title, own chapter title — then dropping
chapters whose content became empty. -/
def epubCleanChapters (genId : Nat → List Char) (inp : EpubInput) : List Chapter :=
  let bookTitle := if inp.metadataTitle ≠ [] then inp.metadataTitle
    else stripExt inp.fileName
  let rawChapters := epubRawChapters genId inp.spine
  let repeatingHeader := detectRepeatingHeader rawChapters
  (rawChapters.map (fun chapter =>
    let lines := ((splitLines chapter.content).map trimJs).filter
      (fun l => decide (0 < l.length))
    let lines1 := match repeatingHeader, lines with
      | some h, l0 :: rest => if l0 = h then rest else lines
      | _, _ => lines
    let lines2 := match lines1 with
      | l0 :: rest => if lowerList l0 = lowerList bookTitle then rest else lines1
      | [] => lines1
    let lines3 := match lines2 with
      | l0 :: rest => if lowerList l0 = lowerList chapter.title then rest else lines2
      | [] => lines2
    { chapter with content := List.intercalate ['\n'] lines3 })).filter
    (fun c => c.content ≠ [])

/-- `parseEpub` (`parser.ts`, lines 101–240) from the point where the spine
items' settled results are in hand: the zero-survivors guard and the final
book assembly. -/
def parseEpub (genId : Nat → List Char) (inp : EpubInput) :
    Except (List Char) Book :=
  let chapters := epubCleanChapters genId inp
  if 0 < inp.spine.length ∧ chapters.length = 0 then
    .error "Failed to extract any content. The book may be corrupted or protected by DRM.".toList
  else
    .ok { id := genId inp.spine.length,
          title := (if inp.metadataTitle ≠ [] then inp.metadataTitle
            else stripExt inp.fileName),
          author := inp.metadataCreator,
          coverImage := inp.coverImage,
          chapters := chapters }

/-- C1, counterexample: a TXT file consisting of two chapter heading lines
and nothing else is accepted by `parseFile`'s TXT path and resolves to a
Book, but both parts' contents are emptied by cleanup, every chapter is
dropped, and the resolved Book's chapters list is empty. -/
theorem parseTxt_empty_chapters_counterexample :
    parseTxt (fun _ => ['x']) "book.txt".toList "Chapter 1\nChapter 2".toList =
      .ok { id := ['x'], title := "book".toList, chapters := [] } := rfl

/-- C1, amended: a Book resolved by the TXT path has a non-empty chapters
list whenever the file does not split into more than one chapter part (the
single-chapter branch always pushes exactly one chapter), and a Book
resolved by the EPUB path from a non-empty spine has a non-empty chapters
list; but a multi-part TXT file whose every part's content is emptied by
cleanup resolves with an empty chapters list. -/
theorem parse_nonempty_chapters (genId : Nat → List Char)
    (fileName fileContent : List Char) (inp : EpubInput) (b bEpub : Book)
    (htxt : parseTxt genId fileName fileContent = .ok b)
    (hparts :
      ((splitAtChapters fileContent).filter (fun part => trimJs part ≠ [])).length ≤ 1)
    (hepub : parseEpub genId inp = .ok bEpub)
    (hspine : inp.spine ≠ []) :
    b.chapters.length = 1 ∧ bEpub.chapters ≠ [] := by
  constructor
  · rw [parseTxt] at htxt
    split at htxt
    · exact absurd htxt (by simp)
    · dsimp only at htxt
      rw [if_pos hparts] at htxt
      injection htxt with hb
      rw [← hb]
      rfl
  · rw [parseEpub] at hepub
    split at hepub
    · exact absurd hepub (by simp)
    · next hcond =>
      injection hepub with hb
      rw [← hb]
      dsimp only
      intro hnil
      exact hcond ⟨List.length_pos.mpr hspine, by rw [hnil]; rfl⟩

theorem parse_nonempty_chapters_witness :
    ({ id := ['x'], title := ['b'],
        chapters := [⟨['x'], "Full Text".toList, "hello".toList⟩] } : Book).chapters.length
        = 1 ∧
      ({ id := ['x'], title := ['T'],
          chapters := [⟨['x'], "Chapter 1".toList, ['h']⟩] } : Book).chapters ≠ [] :=
  parse_nonempty_chapters (fun _ => ['x']) "b.txt".toList "hello".toList
    { fileName := "b.epub".toList, metadataTitle := ['T'],
      spine := [{ extracted := some ['h'] }] }
    { id := ['x'], title := ['b'],
      chapters := [⟨['x'], "Full Text".toList, "hello".toList⟩] }
    { id := ['x'], title := ['T'],
      chapters := [⟨['x'], "Chapter 1".toList, ['h']⟩] }
    (by rfl) (by decide) (by rfl) (by simp)

/-- C8: the EPUB parse fails — and then precisely with the explicit
corrupted-or-DRM-protected error message — if and only if the spine was
non-empty and zero chapters survive content cleanup; in every other case,
including arbitrary per-chapter load failures and empty extraction results
(which are silently dropped by `epubRawChapters`/`epubCleanChapters`),
the import succeeds and carries exactly the surviving cleaned chapters. -/
theorem parseEpub_drm_error_iff (genId : Nat → List Char) (inp : EpubInput) :
    ((∃ e, parseEpub genId inp = .error e) ↔
      (inp.spine ≠ [] ∧ epubCleanChapters genId inp = [])) ∧
    (∀ e, parseEpub genId inp = .error e →
      e = "Failed to extract any content. The book may be corrupted or protected by DRM.".toList) ∧
    ((inp.spine = [] ∨ epubCleanChapters genId inp ≠ []) →
      ∃ b, parseEpub genId inp = .ok b ∧
        b.chapters = epubCleanChapters genId inp) := by
  by_cases hcond : 0 < inp.spine.length ∧ (epubCleanChapters genId inp).length = 0
  · have he : parseEpub genId inp =
        .error "Failed to extract any content. The book may be corrupted or protected by DRM.".toList := by
      rw [parseEpub]
      rw [if_pos hcond]
    refine ⟨?_, ?_, ?_⟩
    · constructor
      · intro _
        exact ⟨fun hnil => by rw [hnil] at hcond; simp at hcond,
          List.length_eq_zero.mp hcond.2⟩
      · intro _
        exact ⟨_, he⟩
    · intro e hee
      rw [he] at hee
      injection hee with hmsg
      exact hmsg.symm
    · intro hor
      rcases hor with h1 | h2
      · rw [h1] at hcond
        simp at hcond
      · exact absurd (List.length_eq_zero.mp hcond.2) h2
  · have hok : parseEpub genId inp =
        .ok { id := genId inp.spine.length,
              title := (if inp.metadataTitle ≠ [] then inp.metadataTitle
                else stripExt inp.fileName),
              author := inp.metadataCreator,
              coverImage := inp.coverImage,
              chapters := epubCleanChapters genId inp } := by
      rw [parseEpub]
      rw [if_neg hcond]
    refine ⟨?_, ?_, ?_⟩
    · constructor
      · rintro ⟨e, hee⟩
        rw [hok] at hee
        exact absurd hee (by simp)
      · rintro ⟨hne, hnil⟩
        exact absurd ⟨List.length_pos.mpr hne, by rw [hnil]; rfl⟩ hcond
    · intro e hee
      rw [hok] at hee
      exact absurd hee (by simp)
    · intro _
      exact ⟨_, hok, rfl⟩

theorem parseEpub_drm_error_iff_witness :
    ∃ b, parseEpub (fun _ => ['x'])
        { fileName := "b.epub".toList, metadataTitle := ['T'],
          spine := [{ extracted := some ['h'] }, {}, { extracted := some [] }] } = .ok b ∧
      b.chapters = epubCleanChapters (fun _ => ['x'])
        { fileName := "b.epub".toList, metadataTitle := ['T'],
          spine := [{ extracted := some ['h'] }, {}, { extracted := some [] }] } :=
  (parseEpub_drm_error_iff (fun _ => ['x'])
    { fileName := "b.epub".toList, metadataTitle := ['T'],
      spine := [{ extracted := some ['h'] }, {}, { extracted := some [] }] }).2.2
    (Or.inr (by decide))

/-! ## Book Settings modal prefix cleanup
(`BookSettingsModal.handleSaveChanges`, `escapeRegExp`) -/

/-- A token of the compiled removal pattern
`new RegExp('^' + escapeRegExp(prefix).replace(/#/, "\\s*\\d+[.:-]?\\s*"), 'i')`.
`escapeRegExp` backslash-escapes every regex metacharacter first, so every
character of the user's pattern is a literal; the `replace` (no `g` flag)
then turns exactly the first `#` into the number placeholder. -/
inductive PatTok where
  | lit (c : Char)
  | numPh
deriving Repr, DecidableEq

/-- Compile the trimmed prefix into tokens: each character is a literal
except the first `#`, which becomes the `\s*\d+[.:-]?\s*` placeholder. -/
def compilePrefixPattern : List Char → List PatTok
  | [] => []
  | c :: rest =>
    if c = '#' then PatTok.numPh :: rest.map PatTok.lit
    else PatTok.lit c :: compilePrefixPattern rest

/-- Every length that `\s*\d+[.:-]?\s*` can consume from the front of `xs`,
listed in the backtracking engine's preference order: each greedy piece
longest-first, the optional separator present-first. -/
def numPhConsumes (xs : List Char) : List Nat :=
  let wmax := (xs.takeWhile isWsJs).length
  ((List.range (wmax + 1)).reverse).flatMap (fun w =>
    let xs1 := xs.drop w
    let dmax := (xs1.takeWhile Char.isDigit).length
    ((List.range' 1 dmax).reverse).flatMap (fun d =>
      let xs2 := xs1.drop d
      let seps := match xs2 with
        | c :: _ => if c = '.' ∨ c = ':' ∨ c = '-' then [1, 0] else [0]
        | [] => ([0] : List Nat)
      seps.flatMap (fun sp =>
        let xs3 := xs2.drop sp
        let tmax := (xs3.takeWhile isWsJs).length
        ((List.range (tmax + 1)).reverse).map (fun t => w + d + sp + t))))

/-- Leftmost-greedy matcher for the compiled pattern anchored at the start
of the content (`^...` with the `i` flag): returns the length of `match[0]`.
The first success in `numPhConsumes`' preference order is the JS engine's
choice. -/
def matchToks : List PatTok → List Char → Option Nat
  | [], _ => some 0
  | PatTok.lit _ :: _, [] => none
  | PatTok.lit c :: ts, x :: xs =>
    if charLower c = charLower x then (matchToks ts xs).map (· + 1) else none
  | PatTok.numPh :: ts, xs =>
    ((numPhConsumes xs).filterMap
      (fun n => (matchToks ts (xs.drop n)).map (· + n))).head?

/-- `handleSaveChanges` applied to one chapter's content for a trimmed
prefix pattern containing `#` (`BookSettingsModal`, lines 284–302): match
the compiled anchored pattern against the leading-whitespace-trimmed
content; when `match[0]` is non-empty, remove it and re-attach the leading
whitespace. -/
def applyPrefixRemoval (trimmedPrefix content : List Char) : List Char :=
  let trimmedContent := trimStartJs content
  let leadingWhitespace := content.take (content.length - trimmedContent.length)
  match matchToks (compilePrefixPattern trimmedPrefix) trimmedContent with
  | some n => if n ≠ 0 then leadingWhitespace ++ trimmedContent.drop n else content
  | none => content

/-- C9: for the prefix pattern `"Chapter #"` and content starting
`"Chapter 12: Foo"`, the compiled pattern — literals for the escaped
pattern text, the first `#` expanded to optional whitespace, one or more
digits, an optional separator among `. : -`, optional whitespace, matched
case-insensitively and anchored at the start of the
leading-whitespace-trimmed content — computes the removal
`"Chapter 12: "` (one of the two admissible values), the resulting content
starts with `"Foo"`, and the match is case-insensitive. -/
theorem prefixRemoval_chapter_hash :
    matchToks (compilePrefixPattern "Chapter #".toList) "Chapter 12: Foo".toList =
        some ("Chapter 12: ".toList).length ∧
      ("Chapter 12: Foo".toList).take ("Chapter 12: ".toList).length =
        "Chapter 12: ".toList ∧
      applyPrefixRemoval "Chapter #".toList "Chapter 12: Foo".toList = "Foo".toList ∧
      applyPrefixRemoval "Chapter #".toList "  cHAPTER 12: Foo".toList =
        "  ".toList ++ "Foo".toList := by
  decide

theorem restore_replaces_books_witness :
    (([{ id := ['n'], title := ['n'] }] : List Book).map (fun b => b.id)).toFinset =
        (([{ id := ['n'], title := ['n'] }] : List Book).map (fun b => b.id)).toFinset ∧
      (∀ b ∈ ([{ id := ['n'], title := ['n'] }] : List Book),
        b ∈ ([{ id := ['n'], title := ['n'] }] : List Book)) ∧
      (∀ b ∈ ([{ id := ['o'], title := ['o'] }] : List Book),
        (∀ q ∈ ([{ id := ['n'], title := ['n'] }] : List Book), q.id ≠ b.id) →
        ∀ r ∈ ([{ id := ['n'], title := ['n'] }] : List Book), r.id ≠ b.id) :=
  restore_replaces_books [{ id := ['o'], title := ['o'] }]
    [{ id := ['n'], title := ['n'] }] [{ id := ['n'], title := ['n'] }] (by decide)

end TtsReader
